import Mathlib

/-!
# Verification of the diceware index-sampling core (`diceware.py`)

Shallow embedding of the entropy-to-index pipeline of `diceware.py`:

* `get_one_index` — rejection sampling with modulo reduction
  (`get_one_index(N, M, entropy)` in the source).  The entropy callback is
  modelled as a finite list of draw values consumed left to right; the
  Python `while True` loop becomes structural recursion on that list, with
  an explicit `exhausted` outcome when the list runs out.  The two
  `assert` statements and the `ZeroDivisionError` raised by `M % N` when
  `N == 0` become explicit error outcomes.
* the byte-stream entropy closure of `get_random_numbers` — a read of
  `nbytes` bytes from a byte list followed by unsigned little-endian
  conversion (`int.from_bytes(raw, byteorder='little')`).
* the dice-input reader `_get_throw` — line validation (integer parse,
  count check, range check with its 1-indexed out-of-range report) and the
  positional base-`sides` conversion of an accepted line.
-/

namespace Diceware

/-! ## Rejection sampler: `get_one_index` -/

/-- Outcome of one call to `get_one_index` run against a finite prefix of
the entropy stream. -/
inductive SampleResult where
  /-- Returned `index` after consuming `consumed` draws. -/
  | ok (index : ℕ) (consumed : ℕ)
  /-- The finite draw list ran out while every value so far was rejected
  (the Python loop would still be waiting for more entropy). -/
  | exhausted
  /-- `assert M >= N` failed, or `M % N` raised `ZeroDivisionError`
  because `N == 0`: fatal, before any draw. -/
  | invalidRange
  /-- `assert 0 <= r <= M-1` failed on a draw value. -/
  | badDraw
  deriving DecidableEq

/-- `aN = M - M % N`, the variable of that name in `get_one_index`: the
acceptance threshold, the largest multiple of `N` that is `≤ M`. -/
def aN (N M : ℕ) : ℕ := M - M % N

/-- The `while True` loop body of `get_one_index`: draw `r`, assert it is
in `[0, M-1]`, retry while `r >= aN`, otherwise return `r % N`.  Also
reports how many draws were consumed. -/
def sampleLoop (N M : ℕ) : List ℕ → SampleResult
  | [] => .exhausted
  | r :: rest =>
    if M - 1 < r then .badDraw
    else if aN N M ≤ r then
      match sampleLoop N M rest with
      | .ok x c => .ok x (c + 1)
      | res => res
    else .ok (r % N) 1

/-- `get_one_index(N, M, entropy)` with the callback replaced by the list
`draws` of values it would return.  `assert M >= N` is checked first; the
computation of `M % N` with `N == 0` (Python `ZeroDivisionError`) is the
second error path; then the rejection loop runs. -/
def get_one_index (N M : ℕ) (draws : List ℕ) : SampleResult :=
  if M < N then .invalidRange
  else if N = 0 then .invalidRange
  else sampleLoop N M draws

/-! Basic facts about the threshold and the loop, shared by the claim
theorems below. -/

theorem aN_le (N M : ℕ) : aN N M ≤ M := Nat.sub_le _ _

theorem aN_eq_mul (N M : ℕ) : aN N M = N * (M / N) := by
  unfold aN
  rw [Nat.sub_eq_iff_eq_add (Nat.mod_le M N)]
  exact (Nat.div_add_mod M N).symm

theorem aN_mod_self (N M : ℕ) : aN N M % N = 0 := by
  rw [aN_eq_mul]; exact Nat.mul_mod_right N (M / N)

theorem le_aN (N M : ℕ) (hN : 0 < N) (h : N ≤ M) : N ≤ aN N M := by
  rw [aN_eq_mul]
  have h1 : 1 ≤ M / N := (Nat.one_le_div_iff hN).mpr h
  calc N = N * 1 := (Nat.mul_one N).symm
    _ ≤ N * (M / N) := Nat.mul_le_mul_left N h1

/-- On a draw list whose values all lie in `[0, M-1]`, the loop returns at
the first value strictly below the threshold, with index `r % N`, having
consumed one draw per rejected value plus one. -/
theorem sampleLoop_first_accept (N M : ℕ) :
    ∀ (pre : List ℕ) (r : ℕ) (post : List ℕ),
      (∀ v ∈ pre, v < M) → (∀ v ∈ pre, aN N M ≤ v) → r < aN N M →
      sampleLoop N M (pre ++ r :: post) = .ok (r % N) (pre.length + 1)
  | [], r, post, _, _, hr => by
    have hrM : r < M := lt_of_lt_of_le hr (aN_le N M)
    show sampleLoop N M (r :: post) = _
    unfold sampleLoop
    rw [if_neg (by omega), if_neg (by omega)]
    rfl
  | v :: pre, r, post, hin, hrej, hr => by
    have hvM : v < M := hin v (List.mem_cons_self v pre)
    have hvrej : aN N M ≤ v := hrej v (List.mem_cons_self v pre)
    have ih := sampleLoop_first_accept N M pre r post
      (fun x hx => hin x (List.mem_cons_of_mem v hx))
      (fun x hx => hrej x (List.mem_cons_of_mem v hx)) hr
    show sampleLoop N M (v :: (pre ++ r :: post)) = _
    unfold sampleLoop
    rw [if_neg (by omega), if_pos hvrej, ih]
    rfl

/-- If the loop returns an index, that index is below `N` and at least one
draw was consumed. -/
theorem sampleLoop_ok_inv (N M : ℕ) (hN : 0 < N) :
    ∀ (draws : List ℕ) (x c : ℕ),
      sampleLoop N M draws = .ok x c → x < N ∧ 1 ≤ c
  | [], x, c, h => by simp [sampleLoop] at h
  | r :: rest, x, c, h => by
    unfold sampleLoop at h
    by_cases h1 : M - 1 < r
    · rw [if_pos h1] at h; exact absurd h (by simp)
    · rw [if_neg h1] at h
      by_cases h2 : aN N M ≤ r
      · rw [if_pos h2] at h
        cases hrec : sampleLoop N M rest with
        | ok x' c' =>
          rw [hrec] at h
          obtain ⟨hx, hc⟩ := sampleLoop_ok_inv N M hN rest x' c' hrec
          simp only [SampleResult.ok.injEq] at h
          exact ⟨h.1 ▸ hx, by omega⟩
        | exhausted => rw [hrec] at h; exact absurd h (by simp)
        | invalidRange => rw [hrec] at h; exact absurd h (by simp)
        | badDraw => rw [hrec] at h; exact absurd h (by simp)
      · rw [if_neg h2] at h
        simp only [SampleResult.ok.injEq] at h
        exact ⟨h.1 ▸ Nat.mod_lt r hN, by omega⟩

/-- A list of rejected in-range draws exhausts the loop. -/
theorem sampleLoop_exhausted_of_rej (N M : ℕ) :
    ∀ (draws : List ℕ), (∀ v ∈ draws, v < M) → (∀ v ∈ draws, aN N M ≤ v) →
      sampleLoop N M draws = .exhausted
  | [], _, _ => rfl
  | r :: rest, hin, hrej => by
    have hrM : r < M := hin r (List.mem_cons_self r rest)
    have ih := sampleLoop_exhausted_of_rej N M rest
      (fun x hx => hin x (List.mem_cons_of_mem r hx))
      (fun x hx => hrej x (List.mem_cons_of_mem r hx))
    unfold sampleLoop
    rw [if_neg (by omega), if_pos (hrej r (List.mem_cons_self r rest)), ih]

/-- If the loop exhausts an in-range draw list, every value in it was in
the reject region. -/
theorem sampleLoop_rej_of_exhausted (N M : ℕ) :
    ∀ (draws : List ℕ), (∀ v ∈ draws, v < M) →
      sampleLoop N M draws = .exhausted → ∀ v ∈ draws, aN N M ≤ v
  | [], _, _ => by intro v hv; simp at hv
  | r :: rest, hin, h => by
    have hrM : r < M := hin r (List.mem_cons_self r rest)
    unfold sampleLoop at h
    rw [if_neg (by omega)] at h
    by_cases h2 : aN N M ≤ r
    · rw [if_pos h2] at h
      intro v hv
      rcases List.mem_cons.mp hv with rfl | hv
      · exact h2
      · refine sampleLoop_rej_of_exhausted N M rest
          (fun x hx => hin x (List.mem_cons_of_mem r hx)) ?_ v hv
        cases hrec : sampleLoop N M rest with
        | ok x' c' => rw [hrec] at h; exact absurd h (by simp)
        | exhausted => rfl
        | invalidRange => rw [hrec] at h; exact absurd h (by simp)
        | badDraw => rw [hrec] at h; exact absurd h (by simp)
    · rw [if_neg h2] at h
      exact absurd h (by simp)

/-- On an in-range draw list the loop either exhausts or returns an index:
the assertion outcome `badDraw` never occurs, nor does `invalidRange`. -/
theorem sampleLoop_total (N M : ℕ) :
    ∀ (draws : List ℕ), (∀ v ∈ draws, v < M) →
      sampleLoop N M draws = .exhausted ∨ ∃ x c, sampleLoop N M draws = .ok x c
  | [], _ => Or.inl rfl
  | r :: rest, hin => by
    have hrM : r < M := hin r (List.mem_cons_self r rest)
    have ih := sampleLoop_total N M rest
      (fun x hx => hin x (List.mem_cons_of_mem r hx))
    unfold sampleLoop
    rw [if_neg (by omega)]
    by_cases h2 : aN N M ≤ r
    · rw [if_pos h2]
      rcases ih with h | ⟨x, c, h⟩
      · rw [h]; exact Or.inl rfl
      · rw [h]; exact Or.inr ⟨x, c + 1, rfl⟩
    · rw [if_neg h2]
      exact Or.inr ⟨r % N, 1, rfl⟩

/-- With the preconditions satisfied, `get_one_index` is exactly the
rejection loop. -/
theorem get_one_index_eq_loop (N M : ℕ) (hN : 0 < N) (hM : N ≤ M)
    (draws : List ℕ) : get_one_index N M draws = sampleLoop N M draws := by
  unfold get_one_index
  rw [if_neg (by omega), if_neg (by omega)]

/-- A single in-range draw either gets accepted immediately or exhausts the
one-element stream. -/
theorem get_one_index_single (N M : ℕ) (hN : 0 < N) (hM : N ≤ M)
    (r : ℕ) (hr : r < M) :
    get_one_index N M [r] =
      if r < aN N M then .ok (r % N) 1 else .exhausted := by
  rw [get_one_index_eq_loop N M hN hM]
  unfold sampleLoop
  rw [if_neg (by omega)]
  by_cases h2 : aN N M ≤ r
  · rw [if_pos h2, if_neg (by omega)]
    rfl
  · rw [if_neg h2, if_pos (by omega)]

/-- Among the draw values `0, …, a*N - 1` exactly `a` leave residue `v`
modulo `N`. -/
theorem countP_mod_range_mul (N v : ℕ) (hv : v < N) :
    ∀ a : ℕ, (List.range (a * N)).countP (fun r => r % N == v) = a
  | 0 => by simp
  | a + 1 => by
    rw [show (a + 1) * N = a * N + N by ring, List.range_add,
      List.countP_append, countP_mod_range_mul N v hv a, List.countP_map]
    have h1 : (List.range N).countP ((fun r => r % N == v) ∘ (a * N + ·))
        = (List.range N).countP (fun i => i == v) := by
      apply List.countP_congr
      intro i hi
      have hiN : i < N := List.mem_range.mp hi
      have h2 : (a * N + i) % N = i := by
        rw [Nat.add_comm, Nat.add_mul_mod_self_right, Nat.mod_eq_of_lt hiN]
      simp [Function.comp, h2]
    have h3 : (List.range N).countP (fun i => i == v) = 1 := by
      have h : (List.range N).countP (fun i => i == v)
          = (List.range N).count v := rfl
      rw [h, List.count_eq_one_of_mem (List.nodup_range N)
        (List.mem_range.mpr hv)]
    rw [h1, h3]

/-! ## Claim theorems for the rejection sampler -/

/-- C1: for every `N ≥ 1`, `M ≥ N` and draw sequence with values in
`[0, M-1]`, `get_one_index` discards every value at or above the threshold
`aN = M - M % N` and returns `r % N` at the first drawn value `r` strictly
below it; consequently every returned index lies in `[0, N-1]` (boundary
cases `N = M`, `N = 1`, `M = N + 1` included, as instances of the general
bounds). -/
theorem get_one_index_returns_first_accepted (N M : ℕ)
    (hN : 1 ≤ N) (hM : N ≤ M) :
    (∀ (pre : List ℕ) (r : ℕ) (post : List ℕ),
        (∀ v ∈ pre, v < M) → (∀ v ∈ pre, aN N M ≤ v) → r < aN N M →
        get_one_index N M (pre ++ r :: post) = .ok (r % N) (pre.length + 1)) ∧
    (∀ (draws : List ℕ) (x c : ℕ),
        get_one_index N M draws = .ok x c → x < N) := by
  constructor
  · intro pre r post hpre hrej hr
    rw [get_one_index_eq_loop N M (by omega) hM]
    exact sampleLoop_first_accept N M pre r post hpre hrej hr
  · intro draws x c h
    rw [get_one_index_eq_loop N M (by omega) hM] at h
    exact (sampleLoop_ok_inv N M (by omega) draws x c h).1

/-- Witness for C1: with `N = 7`, `M = 256` (threshold 252) the draw 255 is
rejected and the draw 10 is accepted, giving index `10 % 7 = 3` after two
callback invocations, and `3 < 7`. -/
theorem get_one_index_returns_first_accepted_witness :
    get_one_index 7 256 [255, 10] = .ok 3 2 ∧ (3 : ℕ) < 7 := by
  have h := get_one_index_returns_first_accepted 7 256 (by decide) (by decide)
  refine ⟨?_, ?_⟩
  · exact h.1 [255] 10 [] (by decide) (by decide) (by decide)
  · exact h.2 [255, 10] 3 2 (h.1 [255] 10 [] (by decide) (by decide) (by decide))

/-- C2: for `N ≥ 1`, `M ≥ N` the accept region `[0, aN - 1]` has size an
exact multiple of `N`, and for every target index `v < N` the number of
single-draw values `r ∈ [0, M-1]` on which `get_one_index` immediately
returns `v` is exactly `aN / N`, independent of `v` — the fibers are
equinumerous, so a uniform draw induces a uniform index, whether or not
`M` is a multiple of `N`. -/
theorem get_one_index_uniform_fibers (N M : ℕ) (hN : 1 ≤ N) (hM : N ≤ M) :
    aN N M % N = 0 ∧
    ∀ v, v < N →
      ((List.range M).filter
          (fun r => decide (get_one_index N M [r] = .ok v 1))).length
        = aN N M / N := by
  refine ⟨aN_mod_self N M, fun v hv => ?_⟩
  rw [← List.countP_eq_length_filter]
  have hstep1 : (List.range M).countP
        (fun r => decide (get_one_index N M [r] = .ok v 1))
      = (List.range M).countP
        (fun r => decide (r < aN N M ∧ r % N = v)) := by
    apply List.countP_congr
    intro r hr
    have hrM : r < M := List.mem_range.mp hr
    rw [get_one_index_single N M (by omega) hM r hrM]
    simp only [decide_eq_true_eq]
    by_cases hacc : r < aN N M
    · rw [if_pos hacc, SampleResult.ok.injEq]
      constructor
      · rintro ⟨h1, _⟩; exact ⟨hacc, h1⟩
      · rintro ⟨_, h1⟩; exact ⟨h1, rfl⟩
    · rw [if_neg hacc]
      constructor
      · intro h; exact absurd h (by simp)
      · rintro ⟨h1, _⟩; exact absurd h1 hacc
  have hsplit : aN N M + (M - aN N M) = M := Nat.add_sub_cancel' (aN_le N M)
  have hcount : ∀ p : ℕ → Bool, (List.range M).countP p
      = (List.range (aN N M)).countP p
        + ((List.range (M - aN N M)).map (aN N M + ·)).countP p := by
    intro p
    conv_lhs => rw [← hsplit]
    rw [List.range_add, List.countP_append]
  have hA : (List.range (aN N M)).countP
        (fun r => decide (r < aN N M ∧ r % N = v)) = M / N := by
    have hcongr : (List.range (aN N M)).countP
          (fun r => decide (r < aN N M ∧ r % N = v))
        = (List.range (aN N M)).countP (fun r => r % N == v) := by
      apply List.countP_congr
      intro r hr
      have hrlt : r < aN N M := List.mem_range.mp hr
      by_cases h : r % N = v <;> simp [hrlt, h]
    rw [hcongr, aN_eq_mul, Nat.mul_comm]
    exact countP_mod_range_mul N v hv (M / N)
  have hB : ((List.range (M - aN N M)).map (aN N M + ·)).countP
        (fun r => decide (r < aN N M ∧ r % N = v)) = 0 := by
    apply List.countP_eq_zero.mpr
    intro r hr
    obtain ⟨i, _, rfl⟩ := List.mem_map.mp hr
    simp only [decide_eq_true_eq]
    rintro ⟨h1, _⟩
    omega
  rw [hstep1, hcount _, hA, hB, aN_eq_mul,
    Nat.mul_div_cancel_left _ (by omega : 0 < N)]
  omega

/-- Witness for C2: at `N = 7`, `M = 256` the threshold 252 is a multiple
of 7, and exactly `252 / 7 = 36` of the 256 one-byte draws yield index 3. -/
theorem get_one_index_uniform_fibers_witness :
    aN 7 256 % 7 = 0 ∧
    ((List.range 256).filter
        (fun r => decide (get_one_index 7 256 [r] = .ok 3 1))).length
      = aN 7 256 / 7 := by
  have h := get_one_index_uniform_fibers 7 256 (by decide) (by decide)
  exact ⟨h.1, h.2 3 (by decide)⟩

/-- C3: whenever `N = 0` or `M < N`, `get_one_index` fails with the
invalid-range outcome (`assert M >= N` fails, or `M % N` raises
`ZeroDivisionError`), for every draw stream alike — in particular for the
empty one, so no entropy is consumed. -/
theorem get_one_index_invalid_range (N M : ℕ) (draws : List ℕ)
    (h : N = 0 ∨ M < N) :
    get_one_index N M draws = .invalidRange := by
  unfold get_one_index
  rcases h with rfl | h
  · rw [if_neg (Nat.not_lt_zero M), if_pos rfl]
  · rw [if_pos h]

/-- Witness for C3: `N = 10 > M = 5` fails regardless of available draws,
and `N = 0` fails on an empty stream. -/
theorem get_one_index_invalid_range_witness :
    get_one_index 10 5 [3, 4] = .invalidRange ∧
    get_one_index 0 7 [] = .invalidRange :=
  ⟨get_one_index_invalid_range 10 5 [3, 4] (Or.inr (by decide)),
   get_one_index_invalid_range 0 7 [] (Or.inl rfl)⟩

/-- C6: when `M` is an exact multiple of `N` (with `1 ≤ N ≤ M`), the
threshold equals `M`, so every in-range draw value is accepted: the very
first draw is returned, deterministically, with exactly one callback
invocation. -/
theorem get_one_index_divisible_no_reject (N M : ℕ)
    (hN : 1 ≤ N) (hM : N ≤ M) (hdvd : M % N = 0) :
    (∀ r, r < M → r < aN N M) ∧
    (∀ (r : ℕ) (rest : List ℕ), r < M →
        get_one_index N M (r :: rest) = .ok (r % N) 1) := by
  have haN : aN N M = M := by unfold aN; omega
  constructor
  · intro r hr; omega
  · intro r rest hr
    rw [get_one_index_eq_loop N M (by omega) hM]
    unfold sampleLoop
    rw [if_neg (by omega), if_neg (by omega)]

/-- Witness for C6: `N = 6`, `M = 12`: the draw 7 is below the threshold
12 and is accepted at once, giving index `7 % 6 = 1` in one invocation. -/
theorem get_one_index_divisible_no_reject_witness :
    (7 : ℕ) < aN 6 12 ∧ get_one_index 6 12 [7] = .ok 1 1 := by
  have h := get_one_index_divisible_no_reject 6 12 (by decide) (by decide)
    (by decide)
  exact ⟨h.1 7 (by decide), h.2 7 [] (by decide)⟩

/-- C9: a successful `get_one_index` call always consumes at least one
draw: a returned index certifies at least one callback invocation, an
empty stream can never produce an index, and in the degenerate case
`N = M = 1` the single draw 0 yields index 0 after exactly one
invocation. -/
theorem get_one_index_consumes_entropy :
    (∀ (N M : ℕ) (draws : List ℕ) (x c : ℕ),
        get_one_index N M draws = .ok x c → 1 ≤ c) ∧
    (∀ (N M x c : ℕ), get_one_index N M [] ≠ .ok x c) ∧
    get_one_index 1 1 [0] = .ok 0 1 := by
  have hloop : ∀ (N M : ℕ) (draws : List ℕ) (x c : ℕ),
      sampleLoop N M draws = .ok x c → 1 ≤ c := by
    intro N M draws
    induction draws with
    | nil => intro x c h; exact absurd h (by simp [sampleLoop])
    | cons r rest ih =>
      intro x c h
      unfold sampleLoop at h
      by_cases h1 : M - 1 < r
      · rw [if_pos h1] at h; exact absurd h (by simp)
      · rw [if_neg h1] at h
        by_cases h2 : aN N M ≤ r
        · rw [if_pos h2] at h
          cases hrec : sampleLoop N M rest with
          | ok x' c' =>
            rw [hrec] at h
            simp only [SampleResult.ok.injEq] at h
            omega
          | exhausted => rw [hrec] at h; exact absurd h (by simp)
          | invalidRange => rw [hrec] at h; exact absurd h (by simp)
          | badDraw => rw [hrec] at h; exact absurd h (by simp)
        · rw [if_neg h2] at h
          simp only [SampleResult.ok.injEq] at h
          omega
  refine ⟨?_, ?_, by decide⟩
  · intro N M draws x c h
    unfold get_one_index at h
    by_cases hM : M < N
    · rw [if_pos hM] at h; exact absurd h (by simp)
    · rw [if_neg hM] at h
      by_cases hN : N = 0
      · rw [if_pos hN] at h; exact absurd h (by simp)
      · rw [if_neg hN] at h
        exact hloop N M draws x c h
  · intro N M x c h
    unfold get_one_index at h
    by_cases hM : M < N
    · rw [if_pos hM] at h; exact absurd h (by simp)
    · rw [if_neg hM] at h
      by_cases hN : N = 0
      · rw [if_pos hN] at h; exact absurd h (by simp)
      · rw [if_neg hN] at h
        exact absurd h (by simp [sampleLoop])

/-- Witness for C9: the run at `N = 7`, `M = 256` on draws `[255, 10]`
returns index 3 with `2 ≥ 1` invocations. -/
theorem get_one_index_consumes_entropy_witness : (1 : ℕ) ≤ 2 :=
  get_one_index_consumes_entropy.1 7 256 [255, 10] 3 2 (by decide)

/-- C10: for `N ≥ 1`, `M ≥ N` the threshold is at least `N` (hence at
least 1, so the value 0 is always accepted); the sampler returns an index
on every in-range draw sequence containing a value below the threshold,
returning at the first such value; and exhaustion (the unbounded-loop
scenario) occurs only when every drawn value lies in the reject region. -/
theorem get_one_index_termination (N M : ℕ) (hN : 1 ≤ N) (hM : N ≤ M) :
    N ≤ aN N M ∧ 0 < aN N M ∧
    (∀ draws : List ℕ, (∀ v ∈ draws, v < M) →
        (∃ r ∈ draws, r < aN N M) →
        ∃ x c, get_one_index N M draws = .ok x c) ∧
    (∀ (pre : List ℕ) (r : ℕ) (post : List ℕ),
        (∀ v ∈ pre, v < M) → (∀ v ∈ pre, aN N M ≤ v) → r < aN N M →
        get_one_index N M (pre ++ r :: post) = .ok (r % N) (pre.length + 1)) ∧
    (∀ draws : List ℕ, (∀ v ∈ draws, v < M) →
        get_one_index N M draws = .exhausted →
        ∀ v ∈ draws, aN N M ≤ v) := by
  have hNle : N ≤ aN N M := le_aN N M (by omega) hM
  refine ⟨hNle, by omega, ?_, ?_, ?_⟩
  · intro draws hin hex
    rw [get_one_index_eq_loop N M (by omega) hM]
    rcases sampleLoop_total N M draws hin with h | h
    · obtain ⟨r, hr, hracc⟩ := hex
      have := sampleLoop_rej_of_exhausted N M draws hin h r hr
      omega
    · exact h
  · intro pre r post hpre hrej hr
    rw [get_one_index_eq_loop N M (by omega) hM]
    exact sampleLoop_first_accept N M pre r post hpre hrej hr
  · intro draws hin h
    rw [get_one_index_eq_loop N M (by omega) hM] at h
    exact sampleLoop_rej_of_exhausted N M draws hin h

/-- Witness for C10: at `N = 7`, `M = 256` the threshold 252 is at least
7, the sequence `[255, 10]` contains an accepted value and terminates with
an index, and the all-rejected sequence `[255]` exhausts with every value
at or above the threshold. -/
theorem get_one_index_termination_witness :
    (7 : ℕ) ≤ aN 7 256 ∧
    (∃ x c, get_one_index 7 256 [255, 10] = .ok x c) ∧
    (255 : ℕ) ≥ aN 7 256 := by
  have h := get_one_index_termination 7 256 (by decide) (by decide)
  refine ⟨h.1, ?_, ?_⟩
  · exact h.2.2.1 [255, 10] (by decide) ⟨10, by decide, by decide⟩
  · exact h.2.2.2.2 [255] (by decide) (by decide) 255 (by decide)

/-! ## Byte-stream entropy source: `get_random_numbers` -/

/-- Unsigned little-endian byte-to-integer conversion:
`int.from_bytes(raw, byteorder='little', signed=False)`.  The first byte
is least significant.  Like the library function, it is defined for a
byte string of any length — including one shorter than the caller asked
the stream for, and the empty one, which converts to 0. -/
def from_bytes_le : List ℕ → ℕ
  | [] => 0
  | b :: rest => b + 256 * from_bytes_le rest

/-- Bytes per draw in `get_random_numbers`:
`nbytes = math.ceil(math.log2(wordnum) / 8)`.  Embedded with exact real
arithmetic: `⌈log₂ N / 8⌉ = ⌈log₂₅₆ N⌉ = Nat.clog 256 N` (the source
computes the same quantity with floating-point `log2`; the spec's design
notes call the float version a latent fragility, so the exact value is
the intended reading). -/
def nbytes (wordnum : ℕ) : ℕ := Nat.clog 256 wordnum

/-- One invocation of the `entropy` closure of `get_random_numbers`:
`raw = randomness.read(nbytes)` followed by
`int.from_bytes(raw, 'little')`.  A Python stream read returns *up to*
`nbytes` bytes — at end of stream it returns fewer, possibly none — and
the closure converts whatever came back without checking its length.
Returns the drawn integer and the remainder of the stream. -/
def entropy (nb : ℕ) (stream : List ℕ) : ℕ × List ℕ :=
  (from_bytes_le (stream.take nb), stream.drop nb)

/-- A short or empty byte string still converts to a value below
`256 ^` its actual length. -/
theorem from_bytes_le_lt :
    ∀ bytes : List ℕ, (∀ b ∈ bytes, b < 256) →
      from_bytes_le bytes < 256 ^ bytes.length
  | [], _ => by simp [from_bytes_le]
  | b :: rest, h => by
    have hb : b < 256 := h b (List.mem_cons_self b rest)
    have ih := from_bytes_le_lt rest (fun x hx => h x (List.mem_cons_of_mem b hx))
    simp only [from_bytes_le, List.length_cons, pow_succ]
    omega

/-- C4: the byte-stream draw silently accepts a short read.  With
`nbytes = 2`, a stream holding the single byte `0x05` yields the integer
5 and an empty remainder, and an exhausted stream yields 0 — in both
cases the closure returns a value instead of failing; no
insufficient-entropy outcome exists anywhere on this code path
(`SampleResult`-style errors arise only from `get_one_index`'s own
checks, which a short-read value below `M` never triggers). -/
theorem entropy_short_read_no_error :
    entropy 2 [5] = (5, []) ∧ entropy 2 [] = (0, []) ∧
    get_one_index 7 256 [(entropy 1 []).1] = .ok 0 1 :=
  ⟨rfl, rfl, by decide⟩

/-- C5 counterexample: at `N = 1` (a one-word list, in range since
`N ≥ 1`) the computed `nbytes = ⌈log₂ 1 / 8⌉ = 0`, not at least 1 as
claimed: each draw then reads zero bytes. -/
theorem nbytes_at_one_counterexample : (1 : ℕ) ≥ 1 ∧ nbytes 1 = 0 :=
  ⟨le_refl 1, Nat.clog_one_right 256⟩

/-- C5 amended: for every `N ≥ 1` the computed `nbytes` satisfies
`256 ^ nbytes ≥ N` (covering `N - 1` in binary), and is at least 1
whenever `N ≥ 2` (at `N = 1` it is 0 and each draw reads zero bytes,
returning 0); when the stream holds at least `nbytes` bytes, one
invocation of the draw callback consumes exactly the first `nbytes`
bytes and leaves precisely the remainder (fresh bytes, advancing, no
re-read), returning them interpreted as an unsigned little-endian
integer — which is below `256 ^ nbytes` for genuine bytes, and on the
spec's examples gives `[0x01, 0x00] ↦ 1` and `[0xFF, 0xFF] ↦ 65535`. -/
theorem nbytes_covers_range (N : ℕ) (hN : 1 ≤ N) :
    N ≤ 256 ^ nbytes N ∧
    (2 ≤ N → 1 ≤ nbytes N) ∧
    (∀ stream : List ℕ, nbytes N ≤ stream.length →
      (stream.take (nbytes N)).length = nbytes N ∧
      stream.take (nbytes N) ++ stream.drop (nbytes N) = stream ∧
      entropy (nbytes N) stream
        = (from_bytes_le (stream.take (nbytes N)), stream.drop (nbytes N))) ∧
    (∀ bytes : List ℕ, (∀ b ∈ bytes, b < 256) →
      from_bytes_le bytes < 256 ^ bytes.length) ∧
    from_bytes_le [1, 0] = 1 ∧ from_bytes_le [255, 255] = 65535 := by
  refine ⟨Nat.le_pow_clog (by norm_num) N, ?_, ?_, from_bytes_le_lt, by decide,
    by decide⟩
  · intro h2
    exact Nat.clog_pos (by norm_num) (by omega)
  · intro stream hlen
    refine ⟨?_, List.take_append_drop _ _, rfl⟩
    rw [List.length_take]
    omega

/-- Witness for C5 (amended): at `N = 7` one byte suffices
(`7 ≤ 256 ^ nbytes 7` and `nbytes 7 ≥ 1`), and the little-endian
example conversions hold. -/
theorem nbytes_covers_range_witness :
    (7 : ℕ) ≤ 256 ^ nbytes 7 ∧ 1 ≤ nbytes 7 ∧
    from_bytes_le [1, 0] = 1 ∧ from_bytes_le [255, 255] = 65535 := by
  have h := nbytes_covers_range 7 (by norm_num)
  exact ⟨h.1, h.2.1 (by norm_num), h.2.2.2.2.1, h.2.2.2.2.2⟩

/-! ## Dice entropy source: `_get_throw`

A line the user enters is modelled after `throw.split()`: a list of
tokens, each being `some k` when `int(token)` parses to the integer `k`
and `none` when it raises `ValueError`.  The values are integers, not
naturals: the user can enter `0` or a negative number, which parses fine
and is caught by the range check. -/

/-- `list(map(int, throw.split()))`: every token must parse; a single
failing token aborts the whole line with `ValueError`. -/
def parse_line : List (Option ℤ) → Option (List ℤ)
  | [] => some []
  | some k :: rest => (parse_line rest).map (k :: ·)
  | none :: _ => none

/-- The three reports `_get_throw` prints for a rejected line. -/
inductive ThrowReport where
  /-- `ValueError` printed by the `except` branch: some token is not an
  integer. -/
  | invalidInt
  /-- `"You have to enter exactly {throws} numbers."` -/
  | wrongCount (throws : ℕ)
  /-- `"Number {entry} out of range (1 to {sides})"` with `entry`
  1-indexed (`outofrange.index(True) + 1`). -/
  | outOfRange (entry : ℕ) (sides : ℤ)
  deriving DecidableEq

/-- Which 1-indexed entry of the line a report points at: only the
out-of-range message names one; the wrong-count message and the
`ValueError` text do not identify a position. -/
def reportEntry : ThrowReport → Option ℕ
  | .outOfRange entry _ => some entry
  | _ => none

/-- The test `r < 1 or r > sides` applied to each parsed value. -/
def outOfRangeTest (sides r : ℤ) : Bool := decide (r < 1 ∨ sides < r)

/-- Validation of one entered line, the body of the `while True` loop in
`_get_throw`: parse all tokens, require exactly `throws` values
(`len(rs) != throws`), require each value in `[1, sides]`, reporting the
1-indexed position of the first out-of-range value otherwise
(`outofrange.index(True) + 1`). -/
def checkLine (sides : ℤ) (throws : ℕ) (line : List (Option ℤ)) :
    Except ThrowReport (List ℤ) :=
  match parse_line line with
  | none => .error .invalidInt
  | some rs =>
    if rs.length ≠ throws then .error (.wrongCount throws)
    else if rs.any (outOfRangeTest sides) then
      .error (.outOfRange (rs.findIdx (outOfRangeTest sides) + 1) sides)
    else .ok rs

/-- The accumulation loop at the end of `_get_throw`:
`for i, r in enumerate(rs): res += sides**i * (r-1)`, with `i` the
running index and `res` the accumulator. -/
def throwToIntAux (sides : ℤ) : ℕ → ℤ → List ℤ → ℤ
  | _, res, [] => res
  | i, res, r :: rest => throwToIntAux sides (i + 1) (res + sides ^ i * (r - 1)) rest

/-- The value an accepted line converts to: the loop started at
`i = 0`, `res = 0`. -/
def throwToInt (sides : ℤ) (rs : List ℤ) : ℤ := throwToIntAux sides 0 0 rs

/-- `_get_throw` run on the queue of lines the user will enter: each
rejected line is consumed, its report recorded, and the prompt repeats
for the same word; the first accepted line is converted and returned.
`none` when no line in the queue is ever accepted (the Python loop would
still be prompting).  Returns the value together with the reports of the
rejected lines that preceded acceptance. -/
def get_throw (sides : ℤ) (throws : ℕ) :
    List (List (Option ℤ)) → Option (ℤ × List ThrowReport)
  | [] => none
  | line :: rest =>
    match checkLine sides throws line with
    | .error rep => (get_throw sides throws rest).map (fun p => (p.1, rep :: p.2))
    | .ok rs => some (throwToInt sides rs, [])

/-- Closed form of the accumulation loop as a positional sum. -/
theorem throwToIntAux_sum (sides : ℤ) :
    ∀ (rs : List ℤ) (i : ℕ) (res : ℤ),
      throwToIntAux sides i res rs
        = res + ∑ j in Finset.range rs.length,
            sides ^ (i + j) * (rs.getD j 0 - 1)
  | [], i, res => by simp [throwToIntAux]
  | r :: rest, i, res => by
    rw [show throwToIntAux sides i res (r :: rest)
        = throwToIntAux sides (i + 1) (res + sides ^ i * (r - 1)) rest from rfl,
      throwToIntAux_sum sides rest (i + 1) _,
      List.length_cons, Finset.sum_range_succ']
    simp only [List.getD_cons_succ, List.getD_cons_zero]
    rw [Finset.sum_congr rfl
      (fun j _ => by rw [show i + 1 + j = i + (j + 1) from by omega])]
    ring

/-- Horner-style recursion for the converted value. -/
theorem throwToInt_cons (sides r : ℤ) (rest : List ℤ) :
    throwToInt sides (r :: rest) = (r - 1) + sides * throwToInt sides rest := by
  unfold throwToInt
  rw [throwToIntAux_sum sides (r :: rest) 0 0, throwToIntAux_sum sides rest 0 0,
    List.length_cons, Finset.sum_range_succ']
  simp only [List.getD_cons_succ, List.getD_cons_zero, zero_add, pow_zero,
    one_mul]
  rw [Finset.mul_sum]
  rw [Finset.sum_congr rfl (fun j _ => by rw [pow_succ', mul_assoc])]
  ring

/-- Range of the converted value for a line of valid die faces. -/
theorem throwToInt_bounds (sides : ℤ) :
    ∀ rs : List ℤ, (∀ r ∈ rs, 1 ≤ r ∧ r ≤ sides) →
      0 ≤ throwToInt sides rs ∧ throwToInt sides rs < sides ^ rs.length
  | [], _ => by simp [throwToInt, throwToIntAux]
  | r :: rest, h => by
    obtain ⟨hr1, hrs⟩ := h r (List.mem_cons_self r rest)
    obtain ⟨ih0, ih1⟩ := throwToInt_bounds sides rest
      (fun x hx => h x (List.mem_cons_of_mem r hx))
    have hsides : 1 ≤ sides := le_trans hr1 hrs
    rw [throwToInt_cons, List.length_cons, pow_succ,
      show sides ^ rest.length * sides = sides * sides ^ rest.length from by ring]
    have hnonneg : 0 ≤ sides * throwToInt sides rest :=
      mul_nonneg (by omega) ih0
    have hmul : sides * throwToInt sides rest + sides
        ≤ sides * sides ^ rest.length := by
      calc sides * throwToInt sides rest + sides
          = sides * (throwToInt sides rest + 1) := by ring
        _ ≤ sides * sides ^ rest.length :=
            mul_le_mul_of_nonneg_left (by omega) (by omega)
    exact ⟨by omega, by omega⟩

/-- C7: an accepted line of `throws` die faces, each in `[1, sides]`, is
converted by `_get_throw` to
`r = Σᵢ sides^i * (roll[i] - 1)` with the first entered throw as the
least-significant digit, and the result lies in
`[0, sides^throws - 1]`. -/
theorem throw_conversion (sides : ℤ) (throws : ℕ) (rs : List ℤ)
    (hlen : rs.length = throws) (hin : ∀ r ∈ rs, 1 ≤ r ∧ r ≤ sides) :
    throwToInt sides rs
      = ∑ i in Finset.range throws, sides ^ i * (rs.getD i 0 - 1) ∧
    0 ≤ throwToInt sides rs ∧ throwToInt sides rs < sides ^ throws := by
  obtain ⟨h0, h1⟩ := throwToInt_bounds sides rs hin
  subst hlen
  refine ⟨?_, h0, h1⟩
  rw [show throwToInt sides rs = throwToIntAux sides 0 0 rs from rfl,
    throwToIntAux_sum sides rs 0 0]
  simp

/-- Witness for C7: the spec's example — throws `[2, 1]` with
`sides = 6` convert to `(2-1)·6⁰ + (1-1)·6¹ = 1`, inside `[0, 35]`. -/
theorem throw_conversion_witness :
    throwToInt 6 [2, 1] = ∑ i in Finset.range 2, 6 ^ i * ([(2 : ℤ), 1].getD i 0 - 1) ∧
    0 ≤ throwToInt 6 [2, 1] ∧ throwToInt 6 [2, 1] < 6 ^ 2 ∧
    throwToInt 6 [2, 1] = 1 := by
  have h := throw_conversion 6 2 [2, 1] (by decide)
    (by intro r hr; fin_cases hr <;> norm_num)
  exact ⟨h.1, h.2.1, h.2.2, by decide⟩

/-- C8 counterexample: the line `"1 2 3"` with `throws = 2` is malformed
(wrong count of values), yet its report — `"You have to enter exactly 2
numbers."` — identifies no 1-indexed entry, contradicting the claim that
every malformed line's report identifies the offending entry. -/
theorem checkLine_wrong_count_counterexample :
    checkLine 6 2 [some 1, some 2, some 3] = .error (.wrongCount 2) ∧
    reportEntry (.wrongCount 2) = none :=
  ⟨rfl, rfl⟩

/-- C8 amended: a malformed line (non-integer token, wrong count, or
out-of-range face) is rejected with a report — which identifies the
offending 1-indexed entry in the out-of-range case, while the
wrong-count and invalid-integer reports name no entry — and the same
word is re-prompted without advancing; a queue of only malformed lines
never produces a value, malformed lines are never converted to entropy,
and a value is returned exactly from the first accepted line, which
necessarily has `throws` integer values each in `[1, sides]`. -/
theorem get_throw_validation (sides : ℤ) (throws : ℕ) :
    (∀ (line : List (Option ℤ)) (rs : List ℤ) (p : ℕ) (s : ℤ),
      parse_line line = some rs →
      checkLine sides throws line = .error (.outOfRange p s) →
      s = sides ∧ 1 ≤ p ∧ p - 1 < rs.length ∧
      (rs.getD (p - 1) 0 < 1 ∨ sides < rs.getD (p - 1) 0) ∧
      ∀ j, j < p - 1 → 1 ≤ rs.getD j 0 ∧ rs.getD j 0 ≤ sides) ∧
    (∀ lines : List (List (Option ℤ)),
      (∀ line ∈ lines, ∃ rep, checkLine sides throws line = .error rep) →
      get_throw sides throws lines = none) ∧
    (∀ (bad : List (List (Option ℤ))) (good : List (Option ℤ))
        (rest : List (List (Option ℤ))) (rs : List ℤ),
      (∀ line ∈ bad, ∃ rep, checkLine sides throws line = .error rep) →
      checkLine sides throws good = .ok rs →
      ∃ reps : List ThrowReport,
        get_throw sides throws (bad ++ good :: rest)
          = some (throwToInt sides rs, reps) ∧
        reps.length = bad.length) ∧
    (∀ (line : List (Option ℤ)) (rs : List ℤ),
      checkLine sides throws line = .ok rs →
      parse_line line = some rs ∧ rs.length = throws ∧
      ∀ r ∈ rs, 1 ≤ r ∧ r ≤ sides) := by
  refine ⟨?_, ?_, ?_, ?_⟩
  · intro line rs p s hparse hcheck
    rw [checkLine, hparse] at hcheck
    have hcheck : (if rs.length ≠ throws
        then Except.error (ThrowReport.wrongCount throws)
        else if rs.any (outOfRangeTest sides)
          then Except.error
            (ThrowReport.outOfRange (rs.findIdx (outOfRangeTest sides) + 1) sides)
          else Except.ok rs) = Except.error (.outOfRange p s) := hcheck
    by_cases hlen : rs.length ≠ throws
    · rw [if_pos hlen] at hcheck; exact absurd hcheck (by simp)
    · rw [if_neg hlen] at hcheck
      by_cases hany : rs.any (outOfRangeTest sides)
      · rw [if_pos hany] at hcheck
        simp only [Except.error.injEq, ThrowReport.outOfRange.injEq] at hcheck
        obtain ⟨hp, hs⟩ := hcheck
        have hklen : rs.findIdx (outOfRangeTest sides) < rs.length :=
          List.findIdx_lt_length_of_exists (by simpa using hany)
        refine ⟨hs.symm, by omega, by omega, ?_, ?_⟩
        · have hk : p - 1 = rs.findIdx (outOfRangeTest sides) := by omega
          rw [hk, List.getD_eq_getElem rs 0 hklen]
          have htest := @List.findIdx_getElem _ (outOfRangeTest sides) rs hklen
          unfold outOfRangeTest at htest
          exact of_decide_eq_true htest
        · intro j hj
          have hjlen : j < rs.length := by omega
          have hjk : j < rs.findIdx (outOfRangeTest sides) := by omega
          have hfalse := @List.not_of_lt_findIdx _ (outOfRangeTest sides) rs j hjk
          rw [List.getD_eq_getElem rs 0 hjlen]
          unfold outOfRangeTest at hfalse
          have hprop := of_decide_eq_false hfalse
          push_neg at hprop
          omega
      · rw [if_neg hany] at hcheck; exact absurd hcheck (by simp)
  · intro lines
    induction lines with
    | nil => intro _; rfl
    | cons line rest ih =>
      intro h
      obtain ⟨rep, hrep⟩ := h line (List.mem_cons_self line rest)
      simp only [get_throw]
      rw [hrep, ih (fun l hl => h l (List.mem_cons_of_mem line hl))]
      rfl
  · intro bad
    induction bad with
    | nil =>
      intro good rest rs _ hok
      refine ⟨[], ?_, rfl⟩
      simp only [List.nil_append, get_throw]
      rw [hok]
    | cons b bad ih =>
      intro good rest rs hbad hok
      obtain ⟨rep, hrep⟩ := hbad b (List.mem_cons_self b bad)
      obtain ⟨reps, hg, hlenr⟩ := ih good rest rs
        (fun l hl => hbad l (List.mem_cons_of_mem b hl)) hok
      refine ⟨rep :: reps, ?_, by simp [hlenr]⟩
      simp only [List.cons_append, get_throw]
      rw [hrep]
      show Option.map (fun p => (p.1, rep :: p.2))
          (get_throw sides throws (bad ++ good :: rest)) = _
      rw [hg]
      rfl
  · intro line rs hcheck
    cases hparse : parse_line line with
    | none =>
      rw [checkLine, hparse] at hcheck
      exact absurd hcheck (by simp)
    | some rs' =>
      rw [checkLine, hparse] at hcheck
      have hcheck : (if rs'.length ≠ throws
          then Except.error (ThrowReport.wrongCount throws)
          else if rs'.any (outOfRangeTest sides)
            then Except.error
              (ThrowReport.outOfRange
                (rs'.findIdx (outOfRangeTest sides) + 1) sides)
            else Except.ok rs') = Except.ok rs := hcheck
      by_cases hlen : rs'.length ≠ throws
      · rw [if_pos hlen] at hcheck; exact absurd hcheck (by simp)
      · rw [if_neg hlen] at hcheck
        by_cases hany : rs'.any (outOfRangeTest sides)
        · rw [if_pos hany] at hcheck; exact absurd hcheck (by simp)
        · rw [if_neg hany] at hcheck
          simp only [Except.ok.injEq] at hcheck
          subst hcheck
          refine ⟨rfl, by omega, ?_⟩
          intro r hr
          have : ¬ (outOfRangeTest sides r = true) := by
            intro habs
            exact hany (List.any_eq_true.mpr ⟨r, hr, habs⟩)
          unfold outOfRangeTest at this
          have hprop := of_decide_eq_false (by
            cases h : decide (r < 1 ∨ sides < r)
            · rfl
            · exact absurd h this)
          push_neg at hprop
          omega

/-- Witness for C8 (amended): with `sides = 6`, `throws = 2`, the
wrong-count line `"1 2 3"` is rejected and the following well-formed
line `"2 1"` is accepted for the same word after exactly one re-prompt,
yielding the converted value. -/
theorem get_throw_validation_witness :
    ∃ reps : List ThrowReport,
      get_throw 6 2 [[some 1, some 2, some 3], [some 2, some 1]]
        = some (throwToInt 6 [2, 1], reps) ∧
      reps.length = 1 := by
  have h := (get_throw_validation 6 2).2.2.1
    [[some 1, some 2, some 3]] [some 2, some 1] [] [2, 1]
    (by
      intro line hl
      rw [List.mem_singleton] at hl
      subst hl
      exact ⟨.wrongCount 2, rfl⟩)
    rfl
  simpa using h

end Diceware
